import Mathlib

/-
  Verification of the static site generator in main.py.

  The embedding works over lists of characters.  Python strings are
  modelled as `List Char`; python dicts (which preserve insertion order
  and update in place) as association lists; fallible operations return
  `Except Err`.  External library calls (python-markdown, pygments,
  PIL, datetime.strptime) are either taken as function parameters or
  modelled from the specification, as marked by their doc comments.
-/

set_option maxRecDepth 10000

namespace SiteGen

abbrev Chars := List Char

abbrev Dict := List (Chars × Chars)

/-- Errors that abort the build: python KeyError, ValueError
(string unpacking or strptime), and pygments ClassNotFound. -/
inductive Err where
  | keyError (key : String)
  | valueError
  | classNotFound (lang : String)
  deriving DecidableEq

/-- Tests whether `p` occurs as a contiguous substring of `s`
(python `p in s`). -/
def containsSub (p : Chars) : Chars → Bool
  | [] => p.isPrefixOf []
  | c :: t => p.isPrefixOf (c :: t) || containsSub p t

/-- Index of the first occurrence of `p` in `s`, if any. -/
def firstIdx (p : Chars) : Chars → Option Nat
  | [] => if p.isPrefixOf [] then some 0 else none
  | c :: t => if p.isPrefixOf (c :: t) then some 0 else (firstIdx p t).map (· + 1)

/-- python `s.find(p)`: index of the first occurrence, `-1` if absent. -/
def pyFind (s p : Chars) : Int :=
  match firstIdx p s with
  | some i => (i : Int)
  | none => -1

/-- python slice `s[:i]` for a possibly negative `i`
(a negative index counts from the end of the string). -/
def pySliceTo (s : Chars) (i : Int) : Chars :=
  if 0 ≤ i then s.take i.toNat else s.take ((s.length : Int) + i).toNat

/-- Fuelled worker for `replaceAll`; python `str.replace` replaces all
non-overlapping occurrences left to right, resuming after each
replacement. -/
def replaceAllF (p r : Chars) : Nat → Chars → Chars
  | 0, s => s
  | _ + 1, [] => []
  | n + 1, c :: t =>
    if p ≠ [] ∧ p.isPrefixOf (c :: t) then
      r ++ replaceAllF p r n ((c :: t).drop p.length)
    else
      c :: replaceAllF p r n t

/-- python `s.replace(p, r)` (for nonempty `p`, the only case used). -/
def replaceAll (p r s : Chars) : Chars := replaceAllF p r s.length s

/-- Whitespace characters removed by python `str.strip`. -/
def isPySpace (c : Char) : Bool :=
  c = ' ' ∨ c = '\t' ∨ c = '\n' ∨ c = '\r' ∨ c = '\x0b' ∨ c = '\x0c'

def stripLeft (s : Chars) : Chars := s.dropWhile isPySpace

def stripRight (s : Chars) : Chars := (s.reverse.dropWhile isPySpace).reverse

/-- python `s.strip()`. -/
def pyStrip (s : Chars) : Chars := stripRight (stripLeft s)

/-- python `s.split(sep, maxsplit=1)` for a single character separator,
returning the two pieces around the first occurrence (or `none` when the
separator does not occur, in which case unpacking `key, value = ...`
raises ValueError). -/
def splitOnce (sep : Char) : Chars → Option (Chars × Chars)
  | [] => none
  | c :: t =>
    if c = sep then some ([], t)
    else (splitOnce sep t).map (fun pr => (c :: pr.1, pr.2))

def splitOnChar (sep : Char) : Chars → List Chars
  | [] => [[]]
  | c :: t =>
    let r := splitOnChar sep t
    if c = sep then [] :: r
    else
      match r with
      | [] => [[c]]
      | h :: rs => (c :: h) :: rs

/-- python `s.splitlines()` for `\n`-separated text: like splitting on
`\n` but without a trailing empty line. -/
def pySplitlines (s : Chars) : List Chars :=
  if (splitOnChar '\n' s).getLast? = some [] then (splitOnChar '\n' s).dropLast
  else splitOnChar '\n' s

/-- python dict assignment `d[k] = v`: updates the value in place if the
key is present (keeping its position), otherwise appends the binding. -/
def dictInsert (k v : Chars) : Dict → Dict
  | [] => [(k, v)]
  | kv :: t => if kv.1 = k then (k, v) :: t else kv :: dictInsert k v t

/-- python `d.get(k)`-style lookup. -/
def dictLookup (d : Dict) (k : Chars) : Option Chars :=
  match d.find? (fun kv => kv.1 == k) with
  | some kv => some kv.2
  | none => none

/-- python `k in d`. -/
def dictContains (d : Dict) (k : Chars) : Bool := (dictLookup d k).isSome

/-- python `d[k]`: raises KeyError when the key is absent. -/
def dictGet (d : Dict) (k : Chars) : Except Err Chars :=
  match dictLookup d k with
  | some v => .ok v
  | none => .error (.keyError (String.mk k))

/-! ## Regex scanners

`re.sub` with the two literal-delimited patterns used by main.py is
modelled by explicit scanners: a match is found at the leftmost position
where the opening literal matches and a closing literal follows with at
least one character in between (the `(.|\n)+?` group); the inner group
is as short as possible (non-greedy). -/

/-- Smallest split `t = inner ++ em ++ post` with `inner` nonempty
(the non-greedy `(.|\n)+?` group followed by the closing literal `em`). -/
def findInner (em : Chars) : Chars → Option (Chars × Chars)
  | [] => none
  | c :: t =>
    if em.isPrefixOf t then some ([c], t.drop em.length)
    else (findInner em t).map (fun iq => (c :: iq.1, iq.2))

/-- Leftmost match of `sm (.|\n)+? em` in a string: returns the text
before the match, the inner group, and the text after the match. -/
def scanBlock (sm em : Chars) : Chars → Option (Chars × Chars × Chars)
  | [] => none
  | c :: t =>
    match (if sm.isPrefixOf (c :: t) then findInner em ((c :: t).drop sm.length) else none) with
    | some iq => some ([], iq.1, iq.2)
    | none =>
      match scanBlock sm em t with
      | some piq => some (c :: piq.1, piq.2)
      | none => none

/-- The function `conditional_render(variable_exists)` from main.py: the replacement
function keeps the first group when the variable exists and produces an
empty string otherwise. -/
def conditional_render (variable_exists : Bool) (inner : Chars) : Chars :=
  if variable_exists then inner else []

/-- Fuelled worker for `condSub`: `re.sub` over all non-overlapping
matches, left to right. -/
def condSubF (sm em : Chars) (keep : Bool) : Nat → Chars → Chars
  | 0, s => s
  | n + 1, s =>
    match scanBlock sm em s with
    | none => s
    | some piq => piq.1 ++ conditional_render keep piq.2.1 ++ condSubF sm em keep n piq.2.2

/-- Model of `re.sub(sm + "((.|\n)+?)" + em, conditional_render(keep), s)`. -/
def condSub (sm em : Chars) (keep : Bool) (s : Chars) : Chars :=
  condSubF sm em keep s.length s

/-- The opening literal of a conditional block for variable `x`. -/
def existsStartMarker (x : Chars) : Chars :=
  "\x7b\x7bexists:".data ++ x ++ "\x7d\x7d".data

/-- The closing literal of a conditional block for variable `x`. -/
def existsEndMarker (x : Chars) : Chars :=
  "\x7b\x7bexists:".data ++ x ++ ":end\x7d\x7d".data

/-- The conditional-rendering loop of main.py (lines 114-116): for each
conditional variable, replace each of its blocks according to whether
the variable is a key of the post's metadata. -/
def applyConditionals (cvars : List Chars) (d : Dict) (page : Chars) : Chars :=
  cvars.foldl
    (fun acc cvar =>
      condSub (existsStartMarker cvar) (existsEndMarker cvar) (dictContains d cvar) acc)
    page

/-! ## Code highlighter -/

/-- Opening literal of `CODE_EXTRACTION_REGEX`. -/
def CODE_OPEN : Chars := "<pre><code class=\"language-".data

/-- The literal following the language group in `CODE_EXTRACTION_REGEX`. -/
def CODE_MID : Chars := "\">".data

/-- Closing literal of `CODE_EXTRACTION_REGEX`. -/
def CODE_CLOSE : Chars := "</code></pre>".data

/-- A character matched by `[a-z]`. -/
def isLangChar (c : Char) : Bool := 'a' ≤ c ∧ c ≤ 'z'

/-- Try to match `CODE_EXTRACTION_REGEX` at the start of `s`: the opening
literal, a nonempty greedy `[a-z]+` language group, `">`, then the
non-greedy nonempty code group up to the closing literal. -/
def tryCodeAt (s : Chars) : Option (Chars × Chars × Chars) :=
  if CODE_OPEN.isPrefixOf s then
    let r1 := s.drop CODE_OPEN.length
    let lang := r1.takeWhile isLangChar
    if lang ≠ [] ∧ CODE_MID.isPrefixOf (r1.drop lang.length) then
      (findInner CODE_CLOSE (r1.drop (lang.length + CODE_MID.length))).map
        (fun cq => (lang, cq.1, cq.2))
    else none
  else none

/-- Leftmost match of `CODE_EXTRACTION_REGEX`: text before the match,
language group, code group, text after the match. -/
def scanCode : Chars → Option (Chars × Chars × Chars × Chars)
  | [] => none
  | c :: t =>
    match tryCodeAt (c :: t) with
    | some lcr => some ([], lcr.1, lcr.2.1, lcr.2.2)
    | none =>
      match scanCode t with
      | some plcr => some (c :: plcr.1, plcr.2)
      | none => none

/-- Modelled from the spec: the pygments lexer registry reached through
`get_lexer_by_name` (an external library); a finite table of known
language names.  A lookup of a name outside the table fails. -/
def KNOWN_LEXERS : List String :=
  ["python", "c", "go", "java", "javascript", "html", "css", "bash", "sql", "rust", "text"]

/-- Modelled from the spec: `get_lexer_by_name(lang)` succeeds exactly on
the known language names and raises ClassNotFound otherwise. -/
def get_lexer_by_name (lang : String) : Option String :=
  if KNOWN_LEXERS.contains lang then some lang else none

/-- HTML escaping of one character as performed by the pygments HTML
formatter on code text. -/
def escapeHtmlChar (c : Char) : Chars :=
  if c = '&' then "&amp;".data
  else if c = '<' then "&lt;".data
  else if c = '>' then "&gt;".data
  else if c = '"' then "&quot;".data
  else [c]

def escapeHtml (s : Chars) : Chars := (s.map escapeHtmlChar).flatten

/-- Modelled from the spec: `highlight(code, lexer, PYGMENTS_HTML_FORMATTER)`
(an external library call) re-renders the decoded code as
syntax-highlighted HTML; modelled as the standard pygments wrapper markup
around the HTML-escaped code text. -/
def pygments_highlight (_lexer : String) (code : Chars) : Chars :=
  "<div class=\"highlight\"><pre>".data ++ escapeHtml code ++ "</pre></div>\n".data

/-- The function `hilite_code` from main.py (lines 42-52): decode the four entity
escapes in the captured code group, look up the lexer by the captured
language name, and re-render the code. -/
def hilite_code (lang : String) (code : Chars) : Except Err Chars :=
  let code1 := replaceAll "&amp;".data "&".data code
  let code2 := replaceAll "&lt;".data "<".data code1
  let code3 := replaceAll "&gt;".data ">".data code2
  let code4 := replaceAll "&quot;".data "\"".data code3
  match get_lexer_by_name lang with
  | none => .error (.classNotFound lang)
  | some lexer => .ok (pygments_highlight lexer code4)

/-- The entity-decoding phase of `hilite_code` in isolation: the four
`str.replace` calls in source order. -/
def decode4 (code : Chars) : Chars :=
  replaceAll "&quot;".data "\"".data
    (replaceAll "&gt;".data ">".data
      (replaceAll "&lt;".data "<".data
        (replaceAll "&amp;".data "&".data code)))

/-- Fuelled worker for `hlSub`. -/
def hlSubF : Nat → Chars → Except Err Chars
  | 0, s => .ok s
  | n + 1, s =>
    match scanCode s with
    | none => .ok s
    | some plcr => do
      let h ← hilite_code (String.mk plcr.2.1) plcr.2.2.1
      let r ← hlSubF n plcr.2.2.2
      .ok (plcr.1 ++ h ++ r)

/-- Model of `re.sub(CODE_EXTRACTION_REGEX, hilite_code, out_html, 0, re.MULTILINE)`
(main.py line 89), propagating the lexer-lookup failure. -/
def hlSub (s : Chars) : Except Err Chars := hlSubF s.length s

/-- All matches of `CODE_EXTRACTION_REGEX` in scan order, as
(language, code) pairs. -/
def scanCodeAllF : Nat → Chars → List (Chars × Chars)
  | 0, _ => []
  | n + 1, s =>
    match scanCode s with
    | none => []
    | some plcr => (plcr.2.1, plcr.2.2.1) :: scanCodeAllF n plcr.2.2.2

def scanCodeAll (s : Chars) : List (Chars × Chars) := scanCodeAllF s.length s

/-! ## Metadata block extraction -/

/-- The metadata parsing loop of main.py (lines 95-101): for each
non-blank line, `key, value = meta.strip().split("=", maxsplit=1)`
(ValueError when no `=` occurs), then both sides stripped and stored. -/
def parseMetadataLines (d : Dict) : List Chars → Except Err Dict
  | [] => .ok d
  | meta :: rest =>
    if pyStrip meta = [] then parseMetadataLines d rest
    else
      match splitOnce '=' (pyStrip meta) with
      | none => .error .valueError
      | some kv => parseMetadataLines (dictInsert (pyStrip kv.1) (pyStrip kv.2) d) rest

/-- Lines 91-105 of main.py: find the first `-->`, parse
`out_html[4:metadata_end_ix]` as metadata lines on top of the initial
initial filename mapping, and cut the body after the `-->`.
Returns (metadata, whether the post was appended to `posts_metadata`,
remaining body). -/
def stripMetadata (fn : Chars) (html : Chars) : Except Err (Dict × Bool × Chars) :=
  match firstIdx "-->".data html with
  | none => .ok ([("filename".data, fn)], false, html)
  | some ix => do
    let md ← parseMetadataLines [("filename".data, fn)] (pySplitlines ((html.take ix).drop 4))
    .ok (md, true, html.drop (ix + 3))

/-! ## Template substitution -/

/-- Lines 109-112 of main.py: for each metadata key in insertion order,
replace every `{{key}}` by the value; the `date` value is first cut at
the first `T` via `value[:value.find("T")]`. -/
def metaSubstitute (d : Dict) (page : Chars) : Chars :=
  d.foldl
    (fun acc kv =>
      let value := if kv.1 = "date".data then pySliceTo kv.2 (pyFind kv.2 "T".data) else kv.2
      replaceAll ("\x7b\x7b".data ++ kv.1 ++ "\x7d\x7d".data) value acc)
    page

/-- Lines 106-116 of main.py: nest the body in the single-post template
and the outer shell via `{{CONTENT}}`, substitute metadata placeholders,
then process the conditional blocks. -/
def substituteTemplates (single htmlT : Chars) (cvars : List Chars) (d : Dict) (body : Chars) :
    Chars :=
  let o1 := replaceAll "\x7b\x7bCONTENT\x7d\x7d".data body single
  let o2 := replaceAll "\x7b\x7bCONTENT\x7d\x7d".data o1 htmlT
  applyConditionals cvars d (metaSubstitute d o2)

/-! ## The per-post pipeline -/

/-- The per-post loop body of main.py (lines 87-118): markdown
conversion (the external converter is a parameter), code highlighting,
metadata extraction and stripping, template substitution.  Returns the
written page and, when a `-->` was found, the metadata appended to
`posts_metadata`. -/
def process_post (convert : Chars → Chars) (single htmlT : Chars) (cvars : List Chars)
    (fn : Chars) (src : Chars) : Except Err (Chars × Option Dict) := do
  let converted := convert src
  let highlighted ← hlSub converted
  let mbb ← stripMetadata fn highlighted
  .ok (substituteTemplates single htmlT cvars mbb.1 mbb.2.2,
       if mbb.2.1 then some mbb.1 else none)

/-- Modelled from the spec: the per-post pipeline in the order the spec
claims it runs — markdown conversion, then metadata stripping, then code
highlighting, then template substitution. -/
def spec_order_pipeline (convert : Chars → Chars) (single htmlT : Chars) (cvars : List Chars)
    (fn : Chars) (src : Chars) : Except Err (Chars × Option Dict) := do
  let converted := convert src
  let mbb ← stripMetadata fn converted
  let highlighted ← hlSub mbb.2.2
  .ok (substituteTemplates single htmlT cvars mbb.1 highlighted,
       if mbb.2.1 then some mbb.1 else none)

/-! ## Index builder -/

/-- Modelled from the spec: `datetime.strptime(s, "%Y-%m-%dT%H:%M:%S%z").date()`
followed by `str(...)` (an external library call); accepts zero-padded
ISO-8601 fields with a `+HH:MM`, `+HHMM` or `Z` offset, validates field
ranges, and yields the `YYYY-MM-DD` date prefix; any other shape raises
ValueError. -/
def isLeap (y : Nat) : Bool := y % 4 = 0 ∧ (y % 100 ≠ 0 ∨ y % 400 = 0)

def daysInMonth (y m : Nat) : Nat :=
  if m = 2 then (if isLeap y then 29 else 28)
  else if m = 4 ∨ m = 6 ∨ m = 9 ∨ m = 11 then 30
  else 31

def isDigitC (c : Char) : Bool := '0' ≤ c ∧ c ≤ '9'

def dval (c : Char) : Nat := c.toNat - 48

def num2 (a b : Char) : Nat := 10 * dval a + dval b

/-- The `%z` timezone field: `Z`, `±HHMM` or `±HH:MM`, offset below 24h. -/
def tzOk : Chars → Bool
  | ['Z'] => true
  | [sg, h1, h2, m1, m2] =>
    decide ((sg = '+' ∨ sg = '-') ∧ isDigitC h1 ∧ isDigitC h2 ∧ isDigitC m1 ∧ isDigitC m2 ∧
      num2 h1 h2 ≤ 23 ∧ num2 m1 m2 ≤ 59)
  | [sg, h1, h2, ':', m1, m2] =>
    decide ((sg = '+' ∨ sg = '-') ∧ isDigitC h1 ∧ isDigitC h2 ∧ isDigitC m1 ∧ isDigitC m2 ∧
      num2 h1 h2 ≤ 23 ∧ num2 m1 m2 ≤ 59)
  | _ => false

/-- See the module comment above `isLeap`: strptime + `.date()` + `str`. -/
def strptime_date (s : Chars) : Option Chars :=
  match s with
  | y1 :: y2 :: y3 :: y4 :: '-' :: m1 :: m2 :: '-' :: d1 :: d2 :: 'T' ::
      h1 :: h2 :: ':' :: n1 :: n2 :: ':' :: s1 :: s2 :: tz =>
    if decide (isDigitC y1 ∧ isDigitC y2 ∧ isDigitC y3 ∧ isDigitC y4 ∧
        isDigitC m1 ∧ isDigitC m2 ∧ isDigitC d1 ∧ isDigitC d2 ∧
        isDigitC h1 ∧ isDigitC h2 ∧ isDigitC n1 ∧ isDigitC n2 ∧
        isDigitC s1 ∧ isDigitC s2 ∧
        1 ≤ num2 m1 m2 ∧ num2 m1 m2 ≤ 12 ∧
        1 ≤ num2 d1 d2 ∧
        num2 d1 d2 ≤ daysInMonth (1000 * dval y1 + 100 * dval y2 + 10 * dval y3 + dval y4)
          (num2 m1 m2) ∧
        num2 h1 h2 ≤ 23 ∧ num2 n1 n2 ≤ 59 ∧ num2 s1 s2 ≤ 61) && tzOk tz then
      some (s.take 10)
    else none
  | _ => none

/-- The body of the `for post in all_posts` loop in `build_posts`
(main.py lines 132-139): look up filename, title and date (KeyError on
a missing key), parse the date (ValueError on a malformed date), look
up the draft flag, and produce the `<li>` entry (empty when the post is
a draft). -/
def post_entry (post : Dict) : Except Err Chars :=
  match dictGet post "filename".data with
  | .error e => .error e
  | .ok fn =>
    match dictGet post "title".data with
    | .error e => .error e
    | .ok title =>
      match dictGet post "date".data with
      | .error e => .error e
      | .ok date_raw =>
        match strptime_date date_raw with
        | none => .error Err.valueError
        | some date =>
          match dictGet post "draft".data with
          | .error e => .error e
          | .ok is_draft =>
            .ok (if is_draft = "false".data then
                  "<li><span>".data ++ date ++ "</span>&nbsp;<a href=\"".data ++
                    ("/posts/".data ++ fn) ++ "\">".data ++ title ++ "</a></li>".data
                 else [])

def buildPostsAux (acc : Chars) : List Dict → Except Err Chars
  | [] => .ok (acc ++ "</ul>".data)
  | post :: rest => do
    let e ← post_entry post
    buildPostsAux (acc ++ e) rest

/-- The function `build_posts` from main.py (lines 130-141). -/
def build_posts (all_posts : List Dict) : Except Err Chars :=
  buildPostsAux "<ul>".data all_posts

/-! ## Static assets -/

/-- The static-assets loop of main.py (lines 122-127): each file whose
name ends with `.png` is re-encoded (PIL `Image.save(optimize=True)`,
an external call taken as the parameter `reencode`) into the build
directory; the `shutil.copy2` for the other files is commented out, so
they produce no output. -/
def staticAssets (reencode : Chars → Chars) : List (Chars × Chars) → List (Chars × Chars)
  | [] => []
  | file :: rest =>
    if ".png".data.isSuffixOf file.1 then
      (file.1, reencode file.2) :: staticAssets reencode rest
    else
      staticAssets reencode rest

/-! ## Spec-side definitions used by individual claims -/

/-- Modelled from the spec: re-serialization of a metadata mapping as
`key = value` lines, one per entry (claim C5's round-trip). -/
def serializeMeta : Dict → Chars
  | [] => []
  | [kv] => kv.1 ++ " = ".data ++ kv.2
  | kv :: kv2 :: rest => kv.1 ++ " = ".data ++ kv.2 ++ '\n' :: serializeMeta (kv2 :: rest)

/-- Well-formedness of a post mapping as the index builder needs it:
filename, title, date and draft keys all present and the date in the
strptime format. -/
def wfPost (p : Dict) : Bool :=
  (dictLookup p "filename".data).isSome &&
  (dictLookup p "title".data).isSome &&
  (match dictLookup p "date".data with
   | some d => (strptime_date d).isSome
   | none => false) &&
  (dictLookup p "draft".data).isSome

/-- The `<li>` entry a well-formed post contributes to the index list:
empty unless its draft flag is the literal string `false`. -/
def postEntryPure (p : Dict) : Chars :=
  if (dictLookup p "draft".data).getD [] = "false".data then
    "<li><span>".data ++ ((dictLookup p "date".data).bind strptime_date).getD [] ++
      "</span>&nbsp;<a href=\"/posts/".data ++ (dictLookup p "filename".data).getD [] ++
      "\">".data ++ (dictLookup p "title".data).getD [] ++ "</a></li>".data
  else []

/-! # Helper lemmas -/

theorem prefixOf_nil_iff (p : Chars) : p.isPrefixOf ([] : Chars) = true ↔ p = [] := by
  cases p <;> simp [List.isPrefixOf]

theorem exists_of_prefixOf {p s : Chars} (h : p.isPrefixOf s = true) : ∃ t, s = p ++ t := by
  induction p generalizing s with
  | nil => exact ⟨s, rfl⟩
  | cons a p ih =>
    cases s with
    | nil => simp [List.isPrefixOf] at h
    | cons b t =>
      simp only [List.isPrefixOf, Bool.and_eq_true, beq_iff_eq] at h
      obtain ⟨rfl, h2⟩ := h
      obtain ⟨u, rfl⟩ := ih h2
      exact ⟨u, rfl⟩

theorem prefixOf_append_self (p t : Chars) : p.isPrefixOf (p ++ t) = true := by
  induction p with
  | nil => simp [List.isPrefixOf]
  | cons a p ih => simp [List.isPrefixOf, ih]

theorem length_le_of_prefixOf {p s : Chars} (h : p.isPrefixOf s = true) :
    p.length ≤ s.length := by
  obtain ⟨t, rfl⟩ := exists_of_prefixOf h
  simp

theorem replaceAllF_nil (p r : Chars) (n : Nat) : replaceAllF p r n [] = [] := by
  cases n <;> rfl

theorem replaceAllF_cons (p r : Chars) (n : Nat) (c : Char) (t : Chars) :
    replaceAllF p r (n + 1) (c :: t) =
      if p ≠ [] ∧ p.isPrefixOf (c :: t) = true then
        r ++ replaceAllF p r n ((c :: t).drop p.length)
      else c :: replaceAllF p r n t := rfl

theorem containsSub_nil {q : Chars} (hq : q ≠ []) : containsSub q [] = false := by
  cases q with
  | nil => exact absurd rfl hq
  | cons a t => simp [containsSub, List.isPrefixOf]

theorem containsSub_append_cancel (q r x : Chars) (hq : q ≠ [])
    (hdisj : ∀ a ∈ r, a ∉ q) : containsSub q (r ++ x) = containsSub q x := by
  induction r with
  | nil => rfl
  | cons a r ih =>
    have ha : a ∉ q := hdisj a (List.mem_cons_self a r)
    have hpre : q.isPrefixOf (a :: (r ++ x)) = false := by
      cases q with
      | nil => exact absurd rfl hq
      | cons qh qt =>
        simp only [List.isPrefixOf, Bool.and_eq_false_iff, beq_eq_false_iff_ne]
        left
        intro heq
        exact ha (heq ▸ List.mem_cons_self qh qt)
    calc containsSub q (a :: r ++ x)
        = (q.isPrefixOf (a :: (r ++ x)) || containsSub q (r ++ x)) := rfl
      _ = containsSub q (r ++ x) := by rw [hpre, Bool.false_or]
      _ = containsSub q x := ih (fun b hb => hdisj b (List.mem_cons_of_mem a hb))

theorem prefixOf_replaceAllF (p r : Chars) (hr : r ≠ []) :
    ∀ (n : Nat) (t q : Chars), q ≠ [] → (∀ a ∈ q, a ∉ r) → q.isPrefixOf t = false →
      q.isPrefixOf (replaceAllF p r n t) = false := by
  intro n
  induction n with
  | zero => intro t q _ _ h; exact h
  | succ n ih =>
    intro t q hq hdisj h
    cases t with
    | nil =>
      rw [replaceAllF_nil]
      cases q with
      | nil => exact absurd rfl hq
      | cons qh qt => simp [List.isPrefixOf]
    | cons c t =>
      rw [replaceAllF_cons]
      by_cases hcond : p ≠ [] ∧ p.isPrefixOf (c :: t) = true
      · rw [if_pos hcond]
        cases r with
        | nil => exact absurd rfl hr
        | cons rh rt =>
          cases q with
          | nil => exact absurd rfl hq
          | cons qh qt =>
            simp only [List.cons_append, List.isPrefixOf, Bool.and_eq_false_iff,
              beq_eq_false_iff_ne]
            left
            intro hqr
            exact hdisj qh (List.mem_cons_self qh qt) (hqr ▸ List.mem_cons_self rh rt)
      · rw [if_neg hcond]
        cases q with
        | nil => exact absurd rfl hq
        | cons qh qt =>
          simp only [List.isPrefixOf, Bool.and_eq_false_iff, beq_eq_false_iff_ne] at h ⊢
          rcases h with h | h
          · exact Or.inl h
          · cases qt with
            | nil => simp [List.isPrefixOf] at h
            | cons q1 q2 =>
              exact Or.inr (ih t (q1 :: q2) (by simp)
                (fun a ha => hdisj a (List.mem_cons_of_mem qh ha)) h)

theorem containsSub_drop (q : Chars) :
    ∀ (k : Nat) (s : Chars), containsSub q s = false → containsSub q (s.drop k) = false := by
  intro k
  induction k with
  | zero => intro s h; exact h
  | succ k ih =>
    intro s h
    cases s with
    | nil => exact h
    | cons c t =>
      have ht : containsSub q t = false := by
        have : (q.isPrefixOf (c :: t) || containsSub q t) = false := h
        exact (Bool.or_eq_false_iff.mp this).2
      exact ih t ht

theorem containsSub_replaceAllF_self (p r : Chars) (hp : p ≠ []) (hr : r ≠ [])
    (hdisj : ∀ a ∈ r, a ∉ p) :
    ∀ (n : Nat) (s : Chars), s.length ≤ n → containsSub p (replaceAllF p r n s) = false := by
  intro n
  induction n with
  | zero =>
    intro s hs
    have : s = [] := List.length_eq_zero.mp (Nat.le_zero.mp hs)
    subst this
    exact containsSub_nil hp
  | succ n ih =>
    intro s hs
    cases s with
    | nil => rw [replaceAllF_nil]; exact containsSub_nil hp
    | cons c t =>
      by_cases hcond : p ≠ [] ∧ p.isPrefixOf (c :: t) = true
      · rw [replaceAllF_cons, if_pos hcond]
        rw [containsSub_append_cancel p r _ hp hdisj]
        apply ih
        have hlen := length_le_of_prefixOf hcond.2
        have hp1 : 0 < p.length := List.length_pos.mpr hp
        simp only [List.length_drop, List.length_cons]
        simp only [List.length_cons] at hs hlen
        omega
      · have hpre : p.isPrefixOf (c :: t) = false := by
          rcases Bool.eq_false_or_eq_true (p.isPrefixOf (c :: t)) with h | h
          · exact absurd ⟨hp, h⟩ hcond
          · exact h
        have heq : replaceAllF p r (n + 1) (c :: t) = c :: replaceAllF p r n t := by
          rw [replaceAllF_cons, if_neg hcond]
        have hwhole : p.isPrefixOf (replaceAllF p r (n + 1) (c :: t)) = false :=
          prefixOf_replaceAllF p r hr (n + 1) (c :: t) p hp
            (fun a hap har => hdisj a har hap) hpre
        rw [heq] at hwhole ⊢
        calc containsSub p (c :: replaceAllF p r n t)
            = (p.isPrefixOf (c :: replaceAllF p r n t) || containsSub p (replaceAllF p r n t)) :=
              rfl
          _ = false := by
              rw [hwhole, Bool.false_or]
              exact ih t (by simp only [List.length_cons] at hs; omega)

theorem containsSub_replaceAllF_preserve (p r q : Chars) (hq : q ≠ []) (hr : r ≠ [])
    (hdisj : ∀ a ∈ r, a ∉ q) :
    ∀ (n : Nat) (s : Chars), containsSub q s = false →
      containsSub q (replaceAllF p r n s) = false := by
  intro n
  induction n with
  | zero => intro s h; exact h
  | succ n ih =>
    intro s h
    cases s with
    | nil => rw [replaceAllF_nil]; exact containsSub_nil hq
    | cons c t =>
      have hparts : q.isPrefixOf (c :: t) = false ∧ containsSub q t = false := by
        have : (q.isPrefixOf (c :: t) || containsSub q t) = false := h
        exact Bool.or_eq_false_iff.mp this
      by_cases hcond : p ≠ [] ∧ p.isPrefixOf (c :: t) = true
      · rw [replaceAllF_cons, if_pos hcond]
        rw [containsSub_append_cancel q r _ hq hdisj]
        exact ih _ (containsSub_drop q p.length (c :: t) h)
      · have heq : replaceAllF p r (n + 1) (c :: t) = c :: replaceAllF p r n t := by
          rw [replaceAllF_cons, if_neg hcond]
        have hwhole : q.isPrefixOf (replaceAllF p r (n + 1) (c :: t)) = false :=
          prefixOf_replaceAllF p r hr (n + 1) (c :: t) q hq
            (fun a haq har => hdisj a har haq) hparts.1
        rw [heq] at hwhole ⊢
        calc containsSub q (c :: replaceAllF p r n t)
            = (q.isPrefixOf (c :: replaceAllF p r n t) ||
                containsSub q (replaceAllF p r n t)) := rfl
          _ = false := by rw [hwhole, Bool.false_or]; exact ih t hparts.2

theorem containsSub_replaceAll_self (p r s : Chars) (hp : p ≠ []) (hr : r ≠ [])
    (hdisj : ∀ a ∈ r, a ∉ p) : containsSub p (replaceAll p r s) = false :=
  containsSub_replaceAllF_self p r hp hr hdisj s.length s (Nat.le_refl _)

theorem containsSub_replaceAll_preserve (p r q s : Chars) (hq : q ≠ []) (hr : r ≠ [])
    (hdisj : ∀ a ∈ r, a ∉ q) (h : containsSub q s = false) :
    containsSub q (replaceAll p r s) = false :=
  containsSub_replaceAllF_preserve p r q hq hr hdisj s.length s h

theorem decode4_no_raw_lt (code : Chars) : containsSub "&lt;".data (decode4 code) = false := by
  unfold decode4
  apply containsSub_replaceAll_preserve _ _ _ _ (by decide) (by decide) (by decide)
  apply containsSub_replaceAll_preserve _ _ _ _ (by decide) (by decide) (by decide)
  exact containsSub_replaceAll_self _ _ _ (by decide) (by decide) (by decide)

theorem decode4_no_raw_gt (code : Chars) : containsSub "&gt;".data (decode4 code) = false := by
  unfold decode4
  apply containsSub_replaceAll_preserve _ _ _ _ (by decide) (by decide) (by decide)
  exact containsSub_replaceAll_self _ _ _ (by decide) (by decide) (by decide)

theorem firstIdx_cons_eq (p : Chars) (c : Char) (t : Chars) :
    firstIdx p (c :: t) =
      if p.isPrefixOf (c :: t) = true then some 0 else (firstIdx p t).map (· + 1) := rfl

theorem firstIdx_cons_succ {p : Chars} {c : Char} {t : Chars} {n : Nat}
    (h : firstIdx p (c :: t) = some (n + 1)) :
    p.isPrefixOf (c :: t) = false ∧ firstIdx p t = some n := by
  rw [firstIdx_cons_eq] at h
  by_cases hpre : p.isPrefixOf (c :: t) = true
  · rw [if_pos hpre] at h
    exact absurd (Option.some.inj h) (by omega)
  · rw [if_neg hpre] at h
    refine ⟨Bool.eq_false_iff.mpr hpre, ?_⟩
    cases ho : firstIdx p t with
    | none => rw [ho] at h; cases h
    | some m =>
      rw [ho] at h
      simp only [Option.map_some', Option.some.injEq] at h
      exact congrArg some (by omega)

theorem findInner_sound {em : Chars} :
    ∀ {t : Chars} {iq : Chars × Chars}, findInner em t = some iq →
      t = iq.1 ++ em ++ iq.2 ∧ iq.1 ≠ [] := by
  intro t
  induction t with
  | nil => intro iq h; cases h
  | cons c t ih =>
    intro iq h
    unfold findInner at h
    by_cases hpre : em.isPrefixOf t = true
    · rw [if_pos hpre] at h
      have h' := Option.some.inj h
      subst h'
      obtain ⟨u, hu⟩ := exists_of_prefixOf hpre
      subst hu
      rw [List.drop_left]
      exact ⟨by simp, by simp⟩
    · rw [if_neg hpre] at h
      cases ho : findInner em t with
      | none => rw [ho] at h; cases h
      | some iq' =>
        rw [ho] at h
        simp only [Option.map_some'] at h
        obtain ⟨hdec, hne⟩ := ih ho
        have h' := Option.some.inj h
        subst h'
        refine ⟨?_, by simpa using hne⟩
        show c :: t = (c :: iq'.1) ++ em ++ iq'.2
        simp [hdec]

theorem findInner_complete {em : Chars} :
    ∀ {i : Chars} (q : Chars), i ≠ [] → firstIdx em (i ++ em ++ q) = some i.length →
      findInner em (i ++ em ++ q) = some (i, q) := by
  intro i
  induction i with
  | nil => intro q h _; exact absurd rfl h
  | cons c i ih =>
    intro q _ hfi
    have hshape : (c :: i) ++ em ++ q = c :: (i ++ em ++ q) := by simp
    rw [hshape] at hfi ⊢
    have hfi' : firstIdx em (c :: (i ++ em ++ q)) = some (i.length + 1) := by
      simpa using hfi
    obtain ⟨hpre0, hrest⟩ := firstIdx_cons_succ hfi'
    unfold findInner
    cases i with
    | nil =>
      have hpre : em.isPrefixOf ([] ++ em ++ q) = true := by
        simpa using prefixOf_append_self em q
      rw [if_pos hpre]
      simp only [List.nil_append] at hpre ⊢
      rw [show (em ++ q).drop em.length = q from List.drop_left em q]
    | cons c2 i2 =>
      have hpre : em.isPrefixOf ((c2 :: i2) ++ em ++ q) = false := by
        rcases Bool.eq_false_or_eq_true (em.isPrefixOf ((c2 :: i2) ++ em ++ q)) with h | h
        · rw [show (c2 :: i2) ++ em ++ q = c2 :: (i2 ++ em ++ q) by simp] at h hrest
          rw [firstIdx_cons_eq, if_pos h] at hrest
          exact absurd (Option.some.inj hrest) (by simp)
        · exact h
      rw [if_neg (by rw [hpre]; exact Bool.false_ne_true)]
      rw [ih q (by simp) hrest]
      rfl

theorem scanBlock_cons (sm em : Chars) (c : Char) (t : Chars) :
    scanBlock sm em (c :: t) =
      match (if sm.isPrefixOf (c :: t) = true then findInner em ((c :: t).drop sm.length)
             else none) with
      | some iq => some (([] : Chars), iq.1, iq.2)
      | none =>
        match scanBlock sm em t with
        | some piq => some (c :: piq.1, piq.2)
        | none => none := rfl

theorem scanBlock_sound {sm em : Chars} :
    ∀ {s : Chars} {piq : Chars × Chars × Chars}, scanBlock sm em s = some piq →
      s = piq.1 ++ sm ++ piq.2.1 ++ em ++ piq.2.2 ∧ piq.2.1 ≠ [] := by
  intro s
  induction s with
  | nil => intro piq h; cases h
  | cons c t ih =>
    intro piq h
    rw [scanBlock_cons] at h
    cases htry : (if sm.isPrefixOf (c :: t) = true then findInner em ((c :: t).drop sm.length)
        else none) with
    | some iq =>
      rw [htry] at h
      have h' := Option.some.inj h
      subst h'
      by_cases hpre : sm.isPrefixOf (c :: t) = true
      · rw [if_pos hpre] at htry
        obtain ⟨hdecomp, hne⟩ := findInner_sound htry
        obtain ⟨u, hu⟩ := exists_of_prefixOf hpre
        have hdrop : (c :: t).drop sm.length = u := by rw [hu, List.drop_left]
        rw [hdrop] at hdecomp
        refine ⟨?_, hne⟩
        show c :: t = [] ++ sm ++ iq.1 ++ em ++ iq.2
        rw [hu, hdecomp]
        simp
      · rw [if_neg hpre] at htry; cases htry
    | none =>
      rw [htry] at h
      cases hsb : scanBlock sm em t with
      | none => rw [hsb] at h; cases h
      | some piq' =>
        rw [hsb] at h
        obtain ⟨hdec, hne⟩ := ih hsb
        have h' := Option.some.inj h
        subst h'
        refine ⟨?_, hne⟩
        show c :: t = (c :: piq'.1) ++ sm ++ piq'.2.1 ++ em ++ piq'.2.2
        simp [hdec]

theorem scanBlock_complete {sm em : Chars} :
    ∀ (p : Chars) {i q : Chars}, sm ≠ [] → i ≠ [] →
      firstIdx sm (p ++ sm ++ i ++ em ++ q) = some p.length →
      firstIdx em (i ++ em ++ q) = some i.length →
      scanBlock sm em (p ++ sm ++ i ++ em ++ q) = some (p, i, q) := by
  intro p
  induction p with
  | nil =>
    intro i q hsm hi _ h2
    cases hs : sm with
    | nil => exact absurd hs hsm
    | cons a smt =>
      subst hs
      have hshape : ([] : Chars) ++ (a :: smt) ++ i ++ em ++ q =
          a :: (smt ++ (i ++ em ++ q)) := by simp
      rw [hshape, scanBlock_cons]
      have hpre : (a :: smt).isPrefixOf (a :: (smt ++ (i ++ em ++ q))) = true := by
        have := prefixOf_append_self (a :: smt) (i ++ em ++ q)
        simpa using this
      rw [if_pos hpre]
      have hdrop : (a :: (smt ++ (i ++ em ++ q))).drop (a :: smt).length =
          i ++ em ++ q := by
        have := List.drop_left (a :: smt) (i ++ em ++ q)
        simpa using this
      rw [hdrop, findInner_complete q hi h2]
  | cons c p ih =>
    intro i q hsm hi h1 h2
    have hshape : (c :: p) ++ sm ++ i ++ em ++ q = c :: (p ++ sm ++ i ++ em ++ q) := by simp
    rw [hshape] at h1 ⊢
    have h1' : firstIdx sm (c :: (p ++ sm ++ i ++ em ++ q)) = some (p.length + 1) := by
      simpa using h1
    obtain ⟨hpre, hrest⟩ := firstIdx_cons_succ h1'
    rw [scanBlock_cons, if_neg (by rw [hpre]; exact Bool.false_ne_true)]
    rw [ih hsm hi hrest h2]

theorem condSubF_nil (sm em : Chars) (k : Bool) (n : Nat) : condSubF sm em k n [] = [] := by
  cases n <;> rfl

theorem condSubF_succ (sm em : Chars) (k : Bool) (n : Nat) (s : Chars) :
    condSubF sm em k (n + 1) s =
      match scanBlock sm em s with
      | none => s
      | some piq => piq.1 ++ conditional_render k piq.2.1 ++ condSubF sm em k n piq.2.2 := rfl

theorem condSubF_congr_fuel (sm em : Chars) (k : Bool) :
    ∀ (n m : Nat) (s : Chars), s.length ≤ n → s.length ≤ m →
      condSubF sm em k n s = condSubF sm em k m s := by
  intro n
  induction n with
  | zero =>
    intro m s hn _
    have : s = [] := List.length_eq_zero.mp (Nat.le_zero.mp hn)
    subst this
    rw [condSubF_nil, condSubF_nil]
  | succ n ih =>
    intro m s hn hm
    cases s with
    | nil => rw [condSubF_nil, condSubF_nil]
    | cons c t =>
      cases m with
      | zero => simp at hm
      | succ m =>
        rw [condSubF_succ, condSubF_succ]
        cases hsb : scanBlock sm em (c :: t) with
        | none => rfl
        | some piq =>
          obtain ⟨hdec, hne⟩ := scanBlock_sound hsb
          have hlen := congrArg List.length hdec
          simp only [List.length_cons, List.length_append] at hlen
          have hipos : 0 < piq.2.1.length := List.length_pos.mpr hne
          show piq.1 ++ conditional_render k piq.2.1 ++ condSubF sm em k n piq.2.2 =
            piq.1 ++ conditional_render k piq.2.1 ++ condSubF sm em k m piq.2.2
          simp only [List.length_cons] at hn hm
          rw [ih m piq.2.2 (by omega) (by omega)]

theorem condSub_step (sm em : Chars) (k : Bool) {p i q : Chars} (hsm : sm ≠ []) (hi : i ≠ [])
    (h1 : firstIdx sm (p ++ sm ++ i ++ em ++ q) = some p.length)
    (h2 : firstIdx em (i ++ em ++ q) = some i.length) :
    condSub sm em k (p ++ sm ++ i ++ em ++ q) =
      p ++ conditional_render k i ++ condSub sm em k q := by
  unfold condSub
  cases hL : (p ++ sm ++ i ++ em ++ q).length with
  | zero =>
    exfalso
    have : sm.length = 0 := by
      simp only [List.length_append] at hL
      omega
    exact hsm (List.length_eq_zero.mp this)
  | succ L =>
    rw [condSubF_succ, scanBlock_complete p hsm hi h1 h2]
    show p ++ conditional_render k i ++ condSubF sm em k L q =
      p ++ conditional_render k i ++ condSubF sm em k q.length q
    have hq : q.length ≤ L := by
      have hipos : 0 < i.length := List.length_pos.mpr hi
      simp only [List.length_append] at hL
      omega
    rw [condSubF_congr_fuel sm em k L q.length q hq (Nat.le_refl _)]

theorem prefixOf_self (p : Chars) : p.isPrefixOf p = true := by
  have := prefixOf_append_self p []
  simpa using this

theorem replaceAll_self (p r : Chars) (hp : p ≠ []) : replaceAll p r p = r := by
  unfold replaceAll
  cases p with
  | nil => exact absurd rfl hp
  | cons c t =>
    rw [show (c :: t).length = t.length + 1 from rfl, replaceAllF_cons,
      if_pos ⟨hp, prefixOf_self (c :: t)⟩, List.drop_length, replaceAllF_nil,
      List.append_nil]

theorem firstIdx_eq_none {p s : Chars} (h : containsSub p s = false) :
    firstIdx p s = none := by
  induction s with
  | nil =>
    have h' : p.isPrefixOf [] = false := h
    simp [firstIdx, h']
  | cons c t ih =>
    have h' : (p.isPrefixOf (c :: t) || containsSub p t) = false := h
    obtain ⟨h1, h2⟩ := Bool.or_eq_false_iff.mp h'
    rw [firstIdx_cons_eq, if_neg (by rw [h1]; exact Bool.false_ne_true), ih h2]
    rfl

/-- The per-post pipeline as the explicit staged composition: markdown
conversion, then code highlighting (on the full converted HTML), then
metadata stripping, then template substitution. -/
theorem process_post_eq (convert : Chars → Chars) (single htmlT : Chars)
    (cvars : List Chars) (fn src : Chars) :
    process_post convert single htmlT cvars fn src =
      (hlSub (convert src)).bind (fun highlighted =>
        (stripMetadata fn highlighted).map (fun mbb =>
          (substituteTemplates single htmlT cvars mbb.1 mbb.2.2,
           if mbb.2.1 then some mbb.1 else none))) := by
  unfold process_post
  show (hlSub (convert src)).bind _ = _
  cases hlSub (convert src) with
  | error e => rfl
  | ok highlighted =>
    show (stripMetadata fn highlighted).bind _ = (stripMetadata fn highlighted).map _
    cases stripMetadata fn highlighted with
    | error e => rfl
    | ok mbb => rfl

/-- C1 (counterexample): on a rendered post whose code block contains a
literal `-->`, running the highlighter before metadata stripping (as the
code does) and after it (as the claim states) produce different pages:
the claim's order cuts the body inside the code block. -/
theorem c1_counterexample :
    (process_post id "\x7b\x7bCONTENT\x7d\x7d".data "\x7b\x7bCONTENT\x7d\x7d".data []
        "p".data "<pre><code class=\"language-c\">a-->b</code></pre>C".data).toOption ≠
    (spec_order_pipeline id "\x7b\x7bCONTENT\x7d\x7d".data "\x7b\x7bCONTENT\x7d\x7d".data []
        "p".data "<pre><code class=\"language-c\">a-->b</code></pre>C".data).toOption := by
  decide

/-- C1 (amended): in the per-post pipeline the code highlighter is
applied after markdown conversion but before the metadata comment block
is stripped and before any template substitution; the per-post
transformation equals the composition convert, then highlight, then
strip metadata, then substitute templates. -/
theorem c1_amended_order (convert : Chars → Chars) (single htmlT : Chars)
    (cvars : List Chars) (fn src : Chars) :
    process_post convert single htmlT cvars fn src =
      (hlSub (convert src)).bind (fun highlighted =>
        (stripMetadata fn highlighted).map (fun mbb =>
          (substituteTemplates single htmlT cvars mbb.1 mbb.2.2,
           if mbb.2.1 then some mbb.1 else none))) :=
  process_post_eq convert single htmlT cvars fn src

/-- C2 (counterexample): the rendered post `abc --> def` has no metadata
comment block at its start, yet the code finds the `-->`, appends the
post to the accumulated metadata list (so it is not excluded from the
index input), and generates the page from the truncated body ` def`
rather than from the full rendered body. -/
theorem c2_counterexample :
    ("<!--".data.isPrefixOf "abc --> def".data) = false ∧
    stripMetadata "p".data "abc --> def".data =
      .ok ([("filename".data, "p".data)], true, " def".data) ∧
    process_post id "\x7b\x7bCONTENT\x7d\x7d".data "\x7b\x7bCONTENT\x7d\x7d".data []
        "p".data "abc --> def".data =
      .ok (" def".data, some [("filename".data, "p".data)]) ∧
    (" def".data : Chars) ≠ "abc --> def".data :=
  ⟨by decide, rfl, rfl, by decide⟩

/-- C2 (amended): for every post whose rendered HTML (after
highlighting) contains no occurrence of `-->`, the metadata mapping is
limited to the derived filename, the post is not appended to the
accumulated metadata list (so it is excluded from the index listing),
and its page is still generated from the full rendered body. -/
theorem c2_amended (single htmlT : Chars) (cvars : List Chars) (fn h2 : Chars)
    (hno : containsSub "-->".data h2 = false) :
    stripMetadata fn h2 = .ok ([("filename".data, fn)], false, h2) ∧
    (∀ (convert : Chars → Chars) (src : Chars), hlSub (convert src) = .ok h2 →
      process_post convert single htmlT cvars fn src =
        .ok (substituteTemplates single htmlT cvars [("filename".data, fn)] h2, none)) := by
  have hstrip : stripMetadata fn h2 = .ok ([("filename".data, fn)], false, h2) := by
    unfold stripMetadata
    rw [firstIdx_eq_none hno]
  refine ⟨hstrip, fun convert src hhl => ?_⟩
  rw [process_post_eq, hhl]
  show (stripMetadata fn h2).map _ = _
  rw [hstrip]
  rfl

/-- C4 (counterexample): a conditional block with empty inner content is
not matched by the non-greedy `(.|\n)+?` pattern, so the renderer leaves
it verbatim even when the variable is a metadata key, instead of
replacing the block with its (empty) inner content. -/
theorem c4_counterexample :
    applyConditionals ["v".data] [("v".data, "1".data)]
        "\x7b\x7bexists:v\x7d\x7d\x7b\x7bexists:v:end\x7d\x7d".data =
      "\x7b\x7bexists:v\x7d\x7d\x7b\x7bexists:v:end\x7d\x7d".data ∧
    ("\x7b\x7bexists:v\x7d\x7d\x7b\x7bexists:v:end\x7d\x7d".data : Chars) ≠ [] :=
  ⟨rfl, by decide⟩

/-- C4 (amended): for a conditional variable `x` and a conditional block
`{{exists:x}}A{{exists:x:end}}` with nonempty inner content `A` (the
leftmost block, with the non-greedy shortest inner content, which may
span newlines), the renderer replaces the block with `A` exactly when
`x` is a key of the post's metadata and with the empty string otherwise,
and continues on the remainder of the page. -/
theorem c4_amended (x : Chars) (d : Dict) (p i q : Chars) (hi : i ≠ [])
    (h1 : firstIdx (existsStartMarker x)
        (p ++ existsStartMarker x ++ i ++ existsEndMarker x ++ q) = some p.length)
    (h2 : firstIdx (existsEndMarker x) (i ++ existsEndMarker x ++ q) = some i.length) :
    applyConditionals [x] d (p ++ existsStartMarker x ++ i ++ existsEndMarker x ++ q) =
      p ++ (if dictContains d x then i else []) ++
        condSub (existsStartMarker x) (existsEndMarker x) (dictContains d x) q := by
  have hsm : existsStartMarker x ≠ [] := by
    intro hcontra
    have := congrArg List.length hcontra
    simp [existsStartMarker] at this
  show condSub (existsStartMarker x) (existsEndMarker x) (dictContains d x)
      (p ++ existsStartMarker x ++ i ++ existsEndMarker x ++ q) = _
  rw [condSub_step _ _ _ hsm hi h1 h2]
  rfl

/-- C6: the highlighter decodes the four HTML entity escapes introduced
by the markdown renderer before lexing (the lexer input is the decoded
text), the decoded text contains no `&lt;`/`&gt;` escapes at all, and in
particular a `language-python` block containing `&lt;html&gt;` is lexed
as `<html>`. -/
theorem c6_highlight_decode :
    (∀ (lang : String) (code : Chars), KNOWN_LEXERS.contains lang = true →
        hilite_code lang code = .ok (pygments_highlight lang (decode4 code))) ∧
    (∀ code : Chars, containsSub "&lt;".data (decode4 code) = false ∧
        containsSub "&gt;".data (decode4 code) = false) ∧
    decode4 "&lt;html&gt;".data = "<html>".data ∧
    hilite_code "python" "&lt;html&gt;".data =
      .ok (pygments_highlight "python" "<html>".data) := by
  refine ⟨?_, fun code => ⟨decode4_no_raw_lt code, decode4_no_raw_gt code⟩, by decide, rfl⟩
  intro lang code h
  unfold hilite_code get_lexer_by_name
  rw [if_pos h]
  rfl

theorem hlSubF_succ (n : Nat) (s : Chars) :
    hlSubF (n + 1) s =
      match scanCode s with
      | none => .ok s
      | some plcr =>
        (hilite_code (String.mk plcr.2.1) plcr.2.2.1).bind (fun h =>
          (hlSubF n plcr.2.2.2).bind (fun r => .ok (plcr.1 ++ h ++ r))) := rfl

theorem scanCodeAllF_succ (n : Nat) (s : Chars) :
    scanCodeAllF (n + 1) s =
      match scanCode s with
      | none => []
      | some plcr => (plcr.2.1, plcr.2.2.1) :: scanCodeAllF n plcr.2.2.2 := rfl

theorem hilite_code_unknown (lang : String) (code : Chars)
    (h : KNOWN_LEXERS.contains lang = false) :
    hilite_code lang code = .error (.classNotFound lang) := by
  unfold hilite_code get_lexer_by_name
  rw [if_neg (by rw [h]; exact Bool.false_ne_true)]

theorem hilite_code_error_shape {lang : String} {code : Chars} {e : Err}
    (h : hilite_code lang code = .error e) :
    e = .classNotFound lang ∧ KNOWN_LEXERS.contains lang = false := by
  unfold hilite_code get_lexer_by_name at h
  by_cases hc : KNOWN_LEXERS.contains lang = true
  · rw [if_pos hc] at h; cases h
  · rw [if_neg hc] at h
    have he := Except.error.inj h
    exact ⟨he.symm, Bool.eq_false_iff.mpr hc⟩

theorem hlSubF_error :
    ∀ (n : Nat) (s : Chars) (lc : Chars × Chars), lc ∈ scanCodeAllF n s →
      KNOWN_LEXERS.contains (String.mk lc.1) = false →
      ∃ l, hlSubF n s = .error (.classNotFound l) ∧ KNOWN_LEXERS.contains l = false := by
  intro n
  induction n with
  | zero => intro s lc hmem _; cases hmem
  | succ n ih =>
    intro s lc hmem hunk
    rw [scanCodeAllF_succ] at hmem
    cases hsc : scanCode s with
    | none => rw [hsc] at hmem; cases hmem
    | some plcr =>
      rw [hsc] at hmem
      have hstep : hlSubF (n + 1) s =
          (hilite_code (String.mk plcr.2.1) plcr.2.2.1).bind (fun hh =>
            (hlSubF n plcr.2.2.2).bind (fun r => .ok (plcr.1 ++ hh ++ r))) := by
        rw [hlSubF_succ, hsc]
      cases hhc : hilite_code (String.mk plcr.2.1) plcr.2.2.1 with
      | error e =>
        obtain ⟨he, hf⟩ := hilite_code_error_shape hhc
        subst he
        exact ⟨String.mk plcr.2.1, by rw [hstep, hhc]; rfl, hf⟩
      | ok hcode =>
        rcases List.mem_cons.mp hmem with heq | htail
        · exfalso
          have h1 : String.mk lc.1 = String.mk plcr.2.1 := by rw [heq]
          rw [h1] at hunk
          rw [hilite_code_unknown _ _ hunk] at hhc
          cases hhc
        · obtain ⟨l, hl, hlf⟩ := ih plcr.2.2.2 lc htail hunk
          refine ⟨l, ?_, hlf⟩
          rw [hstep, hhc]
          show (hlSubF n plcr.2.2.2).bind _ = _
          rw [hl]
          rfl

/-- C7: if any fenced code block of a page names a language with no
known lexer, the highlighting pass fails with a ClassNotFound error (no
fallback to plain text), and the whole per-post pipeline propagates that
unhandled error, aborting the build of the page. -/
theorem c7_unknown_lexer_aborts (h : Chars) (lc : Chars × Chars)
    (hmem : lc ∈ scanCodeAll h)
    (hunk : KNOWN_LEXERS.contains (String.mk lc.1) = false) :
    (∃ l, hlSub h = .error (.classNotFound l) ∧ KNOWN_LEXERS.contains l = false) ∧
    (∀ (single htmlT : Chars) (cvars : List Chars) (fn : Chars)
        (convert : Chars → Chars) (src : Chars), convert src = h →
      ∃ l, process_post convert single htmlT cvars fn src = .error (.classNotFound l) ∧
        KNOWN_LEXERS.contains l = false) := by
  obtain ⟨l, hl, hlf⟩ := hlSubF_error h.length h lc hmem hunk
  have hl' : hlSub h = .error (.classNotFound l) := hl
  refine ⟨⟨l, hl', hlf⟩, fun single htmlT cvars fn convert src hconv => ?_⟩
  refine ⟨l, ?_, hlf⟩
  rw [process_post_eq, hconv]
  show (hlSub h).bind _ = _
  rw [hl']
  rfl

/-- C8: the static-assets loop writes an output file exactly for the
input files whose name ends in `.png`, re-encoding each; every other
file is skipped and contributes nothing to the output. -/
theorem c8_static_assets_png_only (reencode : Chars → Chars) (files : List (Chars × Chars)) :
    staticAssets reencode files =
      (files.filter (fun f => ".png".data.isSuffixOf f.1)).map
        (fun f => (f.1, reencode f.2)) := by
  induction files with
  | nil => rfl
  | cons f rest ih =>
    unfold staticAssets
    by_cases hf : ".png".data.isSuffixOf f.1 = true
    · rw [if_pos hf, ih]
      simp [List.filter_cons, hf]
    · have hf' : ".png".data.isSuffixOf f.1 = false := Bool.eq_false_iff.mpr hf
      rw [if_neg (by rw [hf']; exact Bool.false_ne_true), ih]
      simp [List.filter_cons, hf']

theorem metaSubstitute_date (v page : Chars) :
    metaSubstitute [("date".data, v)] page =
      replaceAll "\x7b\x7bdate\x7d\x7d".data (pySliceTo v (pyFind v "T".data)) page := by
  show replaceAll ("\x7b\x7b".data ++ "date".data ++ "\x7d\x7d".data)
      (if ("date".data : Chars) = "date".data then pySliceTo v (pyFind v "T".data)
       else v) page = _
  rw [if_pos rfl]
  rfl

/-- C9: the value substituted for `{{date}}` is `value[:value.find("T")]`:
the prefix before the first `T` when one occurs, and — because a failed
`find` returns `-1` — the value with its final character removed (not
the value itself) when no `T` occurs. -/
theorem c9_date_truncation (v : Chars) :
    (∀ i, firstIdx "T".data v = some i →
        metaSubstitute [("date".data, v)] "\x7b\x7bdate\x7d\x7d".data = v.take i) ∧
    (firstIdx "T".data v = none →
        metaSubstitute [("date".data, v)] "\x7b\x7bdate\x7d\x7d".data = v.dropLast ∧
        (v ≠ [] → v.dropLast ≠ v)) := by
  constructor
  · intro i hi
    have hpf : pyFind v "T".data = (i : Int) := by unfold pyFind; rw [hi]
    rw [metaSubstitute_date, replaceAll_self _ _ (by decide)]
    unfold pySliceTo
    rw [hpf, if_pos (by omega)]
    simp
  · intro hnone
    have hpf : pyFind v "T".data = -1 := by unfold pyFind; rw [hnone]
    constructor
    · rw [metaSubstitute_date, replaceAll_self _ _ (by decide)]
      unfold pySliceTo
      rw [hpf, if_neg (by omega)]
      rw [List.dropLast_eq_take]
      congr 1
      omega
    · intro hv heq
      have hlen := congrArg List.length heq
      rw [List.length_dropLast] at hlen
      have := List.length_pos.mpr hv
      omega

/-! ## Lemmas about python strip and split, for the metadata claims -/

theorem dropWhile_append_not {x y : Chars} {c : Char} (hc : isPySpace c = false) :
    List.dropWhile isPySpace (x ++ c :: y) = List.dropWhile isPySpace x ++ c :: y := by
  induction x with
  | nil => simp [List.dropWhile_cons, hc]
  | cons d t ih =>
    by_cases hd : isPySpace d = true
    · simp [List.dropWhile_cons, hd, ih]
    · have hd' : isPySpace d = false := Bool.eq_false_iff.mpr hd
      simp [List.dropWhile_cons, hd']

theorem dropWhile_append_eq (x z : Chars) :
    List.dropWhile isPySpace (x ++ z) =
      if List.dropWhile isPySpace x = [] then List.dropWhile isPySpace z
      else List.dropWhile isPySpace x ++ z := by
  induction x with
  | nil => simp
  | cons d t ih =>
    by_cases hd : isPySpace d = true
    · simp only [List.cons_append, List.dropWhile_cons, hd, if_true]
      exact ih
    · have hd' : isPySpace d = false := Bool.eq_false_iff.mpr hd
      simp [List.dropWhile_cons, hd']

theorem stripRight_append_not {x y : Chars} {c : Char} (hc : isPySpace c = false) :
    stripRight (x ++ c :: y) = x ++ c :: stripRight y := by
  unfold stripRight
  have hr : (x ++ c :: y).reverse = y.reverse ++ c :: x.reverse := by
    simp
  rw [hr, dropWhile_append_not hc]
  simp

theorem pyStrip_around (a b : Chars) {c : Char} (hc : isPySpace c = false) :
    pyStrip (a ++ c :: b) = stripLeft a ++ c :: stripRight b := by
  unfold pyStrip
  rw [show stripLeft (a ++ c :: b) = stripLeft a ++ c :: b from dropWhile_append_not hc]
  exact stripRight_append_not hc

theorem dropWhile_ws_idem (l : Chars) :
    List.dropWhile isPySpace (List.dropWhile isPySpace l) = List.dropWhile isPySpace l := by
  induction l with
  | nil => rfl
  | cons d t ih =>
    by_cases hd : isPySpace d = true
    · simp [List.dropWhile_cons, hd, ih]
    · have hd' : isPySpace d = false := Bool.eq_false_iff.mpr hd
      simp [List.dropWhile_cons, hd']

theorem stripRight_idem (l : Chars) : stripRight (stripRight l) = stripRight l := by
  unfold stripRight
  simp [dropWhile_ws_idem]

theorem pyStrip_stripLeft (a : Chars) : pyStrip (stripLeft a) = pyStrip a := by
  unfold pyStrip stripLeft
  rw [dropWhile_ws_idem]

theorem stripRight_cons (d : Char) (t : Chars) :
    stripRight (d :: t) =
      if stripRight t = [] then (if isPySpace d = true then [] else [d])
      else d :: stripRight t := by
  unfold stripRight
  rw [List.reverse_cons, dropWhile_append_eq]
  have hiff : (List.dropWhile isPySpace t.reverse = []) ↔
      ((List.dropWhile isPySpace t.reverse).reverse = []) := by
    constructor
    · intro h; rw [h]; rfl
    · intro h; simpa using congrArg List.reverse h
  by_cases h : List.dropWhile isPySpace t.reverse = []
  · rw [if_pos h, if_pos (hiff.mp h)]
    by_cases hd : isPySpace d = true
    · simp [List.dropWhile_cons, hd]
    · have hd' : isPySpace d = false := Bool.eq_false_iff.mpr hd
      simp [List.dropWhile_cons, hd']
  · rw [if_neg h, if_neg (fun hc => h (hiff.mpr hc))]
    simp

theorem stripLeft_cons_ws {d : Char} (t : Chars) (hd : isPySpace d = true) :
    stripLeft (d :: t) = stripLeft t := by
  unfold stripLeft
  rw [List.dropWhile_cons, if_pos hd]

theorem stripLeft_cons_not {d : Char} (t : Chars) (hd : isPySpace d = false) :
    stripLeft (d :: t) = d :: t := by
  unfold stripLeft
  rw [List.dropWhile_cons, if_neg (by rw [hd]; exact Bool.false_ne_true)]

theorem stripLeft_stripRight_comm (x : Chars) :
    stripLeft (stripRight x) = stripRight (stripLeft x) := by
  induction x with
  | nil => rfl
  | cons d t ih =>
    by_cases hd : isPySpace d = true
    · rw [stripLeft_cons_ws t hd, stripRight_cons]
      by_cases ht : stripRight t = []
      · rw [if_pos ht, if_pos hd, ← ih, ht]
      · rw [if_neg ht, stripLeft_cons_ws _ hd]
        exact ih
    · have hd' : isPySpace d = false := Bool.eq_false_iff.mpr hd
      rw [stripLeft_cons_not t hd', stripRight_cons]
      by_cases ht : stripRight t = []
      · rw [if_pos ht, if_neg (by rw [hd']; exact Bool.false_ne_true)]
        rw [stripLeft_cons_not _ hd']
      · rw [if_neg ht, stripLeft_cons_not _ hd']

theorem pyStrip_stripRight (b : Chars) : pyStrip (stripRight b) = pyStrip b := by
  unfold pyStrip
  rw [stripLeft_stripRight_comm, stripRight_idem]

theorem splitOnce_eq_append {x : Chars} (y : Chars) (hx : '=' ∉ x) :
    splitOnce '=' (x ++ '=' :: y) = some (x, y) := by
  induction x with
  | nil => simp [splitOnce]
  | cons d t ih =>
    have hd : ¬(d = '=') := fun h => hx (h ▸ List.mem_cons_self d t)
    simp [splitOnce, hd, ih (fun h => hx (List.mem_cons_of_mem d h))]

theorem parse_step (d : Dict) (a b : Chars) (ha : '=' ∉ a) (ls : List Chars) :
    parseMetadataLines d ((a ++ '=' :: b) :: ls) =
      parseMetadataLines (dictInsert (pyStrip a) (pyStrip b) d) ls := by
  have hline : pyStrip (a ++ '=' :: b) = stripLeft a ++ '=' :: stripRight b :=
    pyStrip_around a b (by decide)
  have hnonblank : ¬(pyStrip (a ++ '=' :: b) = []) := by
    rw [hline]
    simp
  have hmemLeft : '=' ∉ stripLeft a :=
    fun hm => ha (List.Sublist.mem hm (List.dropWhile_sublist _))
  have hsplit : splitOnce '=' (pyStrip (a ++ '=' :: b)) =
      some (stripLeft a, stripRight b) := by
    rw [hline]
    exact splitOnce_eq_append _ hmemLeft
  conv_lhs => unfold parseMetadataLines
  rw [if_neg hnonblank, hsplit]
  show parseMetadataLines (dictInsert (pyStrip (stripLeft a)) (pyStrip (stripRight b)) d) ls = _
  rw [pyStrip_stripLeft, pyStrip_stripRight]

theorem splitOnChar_ne_nil (sep : Char) (s : Chars) : splitOnChar sep s ≠ [] := by
  cases s with
  | nil => simp [splitOnChar]
  | cons d t =>
    unfold splitOnChar
    cases h : splitOnChar sep t with
    | nil => by_cases hd : d = sep <;> simp [h, hd]
    | cons a b => by_cases hd : d = sep <;> simp [h, hd]

theorem splitOnChar_no_sep {x : Chars} (hx : '\n' ∉ x) : splitOnChar '\n' x = [x] := by
  induction x with
  | nil => rfl
  | cons d t ih =>
    have hd : ¬(d = '\n') := fun h => hx (h ▸ List.mem_cons_self d t)
    unfold splitOnChar
    rw [ih (fun h => hx (List.mem_cons_of_mem d h))]
    simp [hd]

theorem splitOnChar_append {x : Chars} (y : Chars) (hx : '\n' ∉ x) :
    splitOnChar '\n' (x ++ '\n' :: y) = x :: splitOnChar '\n' y := by
  induction x with
  | nil =>
    show splitOnChar '\n' ('\n' :: y) = _
    conv_lhs => unfold splitOnChar
    simp
  | cons d t ih =>
    have hd : ¬(d = '\n') := fun h => hx (h ▸ List.mem_cons_self d t)
    have iht := ih (fun h => hx (List.mem_cons_of_mem d h))
    show splitOnChar '\n' (d :: (t ++ '\n' :: y)) = _
    conv_lhs => unfold splitOnChar
    rw [iht]
    simp [hd]

theorem serializeMeta_cons (kv kv2 : Chars × Chars) (rest : Dict) :
    serializeMeta (kv :: kv2 :: rest) =
      (kv.1 ++ " = ".data ++ kv.2) ++ '\n' :: serializeMeta (kv2 :: rest) := by
  show kv.1 ++ " = ".data ++ kv.2 ++ '\n' :: serializeMeta (kv2 :: rest) = _
  simp [List.append_assoc]

theorem line_ne_nil (kv : Chars × Chars) : kv.1 ++ " = ".data ++ kv.2 ≠ [] := by
  simp

theorem pySplitlines_serialize :
    ∀ d : Dict, (∀ kv ∈ d, '\n' ∉ kv.1 ∧ '\n' ∉ kv.2) →
      pySplitlines (serializeMeta d) = d.map (fun kv => kv.1 ++ " = ".data ++ kv.2) := by
  intro d
  induction d with
  | nil => intro _; rfl
  | cons kv rest ih =>
    intro hwf
    have hkv := hwf kv (List.mem_cons_self kv rest)
    have hnl : '\n' ∉ kv.1 ++ " = ".data ++ kv.2 := by
      intro hm
      rcases List.mem_append.mp hm with hm1 | hm2
      · rcases List.mem_append.mp hm1 with hm3 | hm4
        · exact hkv.1 hm3
        · simp at hm4
      · exact hkv.2 hm2
    cases rest with
    | nil =>
      show pySplitlines (kv.1 ++ " = ".data ++ kv.2) = _
      unfold pySplitlines
      rw [splitOnChar_no_sep hnl]
      rw [if_neg (by
        intro hc
        simp only [List.getLast?_singleton, Option.some.injEq] at hc
        exact line_ne_nil kv hc)]
      rfl
    | cons kv2 rest2 =>
      rw [serializeMeta_cons]
      cases hsp : splitOnChar '\n' (serializeMeta (kv2 :: rest2)) with
      | nil => exact absurd hsp (splitOnChar_ne_nil _ _)
      | cons l0 lt =>
        have iht := ih (fun kv' hm => hwf kv' (List.mem_cons_of_mem kv hm))
        unfold pySplitlines at iht ⊢
        rw [splitOnChar_append _ hnl, hsp]
        rw [hsp] at iht
        rw [List.getLast?_cons_cons]
        by_cases hlast : (l0 :: lt).getLast? = some []
        · rw [if_pos hlast]
          rw [if_pos hlast] at iht
          rw [show ((kv.1 ++ " = ".data ++ kv.2) :: l0 :: lt).dropLast =
              (kv.1 ++ " = ".data ++ kv.2) :: (l0 :: lt).dropLast from rfl]
          rw [iht]
          rfl
        · rw [if_neg hlast]
          rw [if_neg hlast] at iht
          rw [iht]
          rfl

theorem dictLookup_cons (kv : Chars × Chars) (t : Dict) (k : Chars) :
    dictLookup (kv :: t) k = if kv.1 = k then some kv.2 else dictLookup t k := by
  unfold dictLookup
  rw [List.find?_cons]
  by_cases hk : kv.1 = k
  · rw [show (kv.1 == k) = true from beq_iff_eq.mpr hk, if_pos hk]
  · rw [show (kv.1 == k) = false from beq_eq_false_iff_ne.mpr hk, if_neg hk]

theorem dictInsert_append {k v : Chars} {d : Dict} (h : dictLookup d k = none) :
    dictInsert k v d = d ++ [(k, v)] := by
  induction d with
  | nil => rfl
  | cons kv t ih =>
    rw [dictLookup_cons] at h
    by_cases hk : kv.1 = k
    · rw [if_pos hk] at h; cases h
    · rw [if_neg hk] at h
      unfold dictInsert
      rw [if_neg hk, ih h]
      rfl

theorem dictLookup_append_none {d : Dict} {kv : Chars × Chars} {k : Chars}
    (h1 : dictLookup d k = none) (h2 : kv.1 ≠ k) : dictLookup (d ++ [kv]) k = none := by
  induction d with
  | nil =>
    rw [List.nil_append, dictLookup_cons, if_neg h2]
    rfl
  | cons kv0 t ih =>
    rw [dictLookup_cons] at h1
    rw [List.cons_append, dictLookup_cons]
    by_cases hk : kv0.1 = k
    · rw [if_pos hk] at h1; cases h1
    · rw [if_neg hk] at h1
      rw [if_neg hk]
      exact ih h1

theorem pyStrip_space_cons (x : Chars) : pyStrip (' ' :: x) = pyStrip x := by
  unfold pyStrip stripLeft
  rw [List.dropWhile_cons, if_pos (by decide)]

theorem stripRight_append_ws (y : Chars) : stripRight (y ++ [' ']) = stripRight y := by
  unfold stripRight
  have h : (y ++ [' ']).reverse = ' ' :: y.reverse := by simp
  rw [h, List.dropWhile_cons, if_pos (by decide)]

theorem pyStrip_append_space (x : Chars) : pyStrip (x ++ [' ']) = pyStrip x := by
  unfold pyStrip
  by_cases hx : stripLeft x = []
  · rw [show stripLeft (x ++ [' ']) = stripLeft [' '] from by
      unfold stripLeft
      rw [dropWhile_append_eq, if_pos (show List.dropWhile isPySpace x = [] from hx)]]
    rw [hx]
    rfl
  · rw [show stripLeft (x ++ [' ']) = stripLeft x ++ [' '] from by
      unfold stripLeft
      rw [dropWhile_append_eq, if_neg (show ¬(List.dropWhile isPySpace x = []) from hx)]]
    exact stripRight_append_ws (stripLeft x)

theorem parse_serialized :
    ∀ (rest : Dict) (d0 : Dict),
      (∀ kv ∈ rest, pyStrip kv.1 = kv.1 ∧ pyStrip kv.2 = kv.2 ∧ '=' ∉ kv.1) →
      (∀ kv ∈ rest, dictLookup d0 kv.1 = none) →
      ((rest.map Prod.fst).Nodup) →
      parseMetadataLines d0 (rest.map (fun kv => kv.1 ++ " = ".data ++ kv.2)) =
        .ok (d0 ++ rest) := by
  intro rest
  induction rest with
  | nil => intro d0 _ _ _; simp [parseMetadataLines]
  | cons kv rest ih =>
    intro d0 hwf hdisj hnodup
    have hkv := hwf kv (List.mem_cons_self kv rest)
    have hline : kv.1 ++ " = ".data ++ kv.2 = (kv.1 ++ [' ']) ++ '=' :: (' ' :: kv.2) := by
      rw [List.append_assoc, List.append_assoc]
      rfl
    have hmem : '=' ∉ kv.1 ++ [' '] := by
      intro hm
      rcases List.mem_append.mp hm with hm1 | hm2
      · exact hkv.2.2 hm1
      · simp at hm2
    rw [List.map_cons, hline, parse_step _ _ _ hmem]
    rw [pyStrip_append_space, pyStrip_space_cons, hkv.1, hkv.2.1]
    rw [dictInsert_append (hdisj kv (List.mem_cons_self kv rest))]
    have hnodup2 : (kv.1 :: rest.map Prod.fst).Nodup := by
      rw [List.map_cons] at hnodup
      exact hnodup
    have hnodup' := List.nodup_cons.mp hnodup2
    rw [ih (d0 ++ [kv]) (fun kv' hm => hwf kv' (List.mem_cons_of_mem kv hm))
      (fun kv' hm => dictLookup_append_none (hdisj kv' (List.mem_cons_of_mem kv hm))
        (fun hc => hnodup'.1 (hc ▸ List.mem_map_of_mem Prod.fst hm)))
      hnodup'.2]
    rw [List.append_assoc]
    rfl

/-- C5: each metadata line `key = value` (arbitrary whitespace around the
first `=`, the value free to contain further `=`) parses to the entry
(trimmed key, trimmed value); and re-serializing a parsed mapping as
`key = value` lines and re-parsing yields the same mapping. -/
theorem c5_metadata_roundtrip :
    (∀ (d : Dict) (a b : Chars), '=' ∉ a →
        parseMetadataLines d [a ++ '=' :: b] =
          .ok (dictInsert (pyStrip a) (pyStrip b) d)) ∧
    (∀ d : Dict,
        (∀ kv ∈ d, pyStrip kv.1 = kv.1 ∧ pyStrip kv.2 = kv.2 ∧ '=' ∉ kv.1 ∧
          '\n' ∉ kv.1 ∧ '\n' ∉ kv.2) →
        ((d.map Prod.fst).Nodup) →
        parseMetadataLines [] (pySplitlines (serializeMeta d)) = .ok d) := by
  constructor
  · intro d a b ha
    rw [parse_step d a b ha []]
    rfl
  · intro d hwf hnodup
    rw [pySplitlines_serialize d (fun kv hm => ⟨(hwf kv hm).2.2.2.1, (hwf kv hm).2.2.2.2⟩)]
    have := parse_serialized d []
      (fun kv hm => ⟨(hwf kv hm).1, (hwf kv hm).2.1, (hwf kv hm).2.2.1⟩)
      (fun kv _ => rfl) hnodup
    simpa using this

/-! ## Lemmas about the index builder -/

theorem dictGet_eq_some {p : Dict} {k v : Chars} (h : dictLookup p k = some v) :
    dictGet p k = .ok v := by
  unfold dictGet
  rw [h]

theorem dictGet_eq_none {p : Dict} {k : Chars} (h : dictLookup p k = none) :
    dictGet p k = .error (.keyError (String.mk k)) := by
  unfold dictGet
  rw [h]

theorem post_entry_of_wf (p : Dict) (h : wfPost p = true) :
    post_entry p = .ok (postEntryPure p) := by
  unfold wfPost at h
  simp only [Bool.and_eq_true] at h
  obtain ⟨⟨⟨hfn, hti⟩, hda⟩, hdr⟩ := h
  cases hfn' : dictLookup p "filename".data with
  | none => rw [hfn'] at hfn; cases hfn
  | some fn =>
  cases hti' : dictLookup p "title".data with
  | none => rw [hti'] at hti; cases hti
  | some ti =>
  cases hda' : dictLookup p "date".data with
  | none => rw [hda'] at hda; exact absurd hda (by simp)
  | some da =>
  cases hsd : strptime_date da with
  | none =>
    rw [hda'] at hda
    have : (strptime_date da).isSome = true := hda
    rw [hsd] at this
    cases this
  | some ds =>
  cases hdr' : dictLookup p "draft".data with
  | none => rw [hdr'] at hdr; cases hdr
  | some dr =>
  have hcomp : post_entry p =
      .ok (if dr = "false".data then
        "<li><span>".data ++ ds ++ "</span>&nbsp;<a href=\"".data ++
          ("/posts/".data ++ fn) ++ "\">".data ++ ti ++ "</a></li>".data
      else []) := by
    unfold post_entry
    rw [dictGet_eq_some hfn', dictGet_eq_some hti', dictGet_eq_some hda',
      dictGet_eq_some hdr']
    simp [hsd]
  rw [hcomp]
  unfold postEntryPure
  rw [hfn', hti', hda', hdr']
  simp only [Option.getD_some, Option.some_bind, hsd]
  by_cases hc : dr = "false".data
  · rw [if_pos hc, if_pos hc]
    simp
  · rw [if_neg hc, if_neg hc]

theorem buildPostsAux_ok :
    ∀ (posts : List Dict) (acc : Chars), (∀ p ∈ posts, wfPost p = true) →
      buildPostsAux acc posts =
        .ok (acc ++ (posts.map postEntryPure).flatten ++ "</ul>".data) := by
  intro posts
  induction posts with
  | nil =>
    intro acc _
    show Except.ok (acc ++ "</ul>".data) = _
    simp
  | cons p rest ih =>
    intro acc h
    show (post_entry p).bind _ = _
    rw [post_entry_of_wf p (h p (List.mem_cons_self p rest))]
    show buildPostsAux (acc ++ postEntryPure p) rest = _
    rw [ih (acc ++ postEntryPure p) (fun q hq => h q (List.mem_cons_of_mem p hq))]
    simp [List.append_assoc]

/-- C3: for well-formed accumulated metadata, the index post listing is
the `<ul>` of the per-post entries, where a post contributes an `<li>`
entry exactly when its draft flag is the literal string `false`; on the
two posts of the claim (2023-01-01, draft=false and 2023-02-01,
draft=true) the listing has exactly the one non-draft `<li>` showing
`2023-01-01`. -/
theorem c3_index_draft_filter :
    (∀ posts : List Dict, (∀ p ∈ posts, wfPost p = true) →
        build_posts posts =
          .ok ("<ul>".data ++ (posts.map postEntryPure).flatten ++ "</ul>".data)) ∧
    (∀ p : Dict,
        postEntryPure p ≠ [] ↔ (dictLookup p "draft".data).getD [] = "false".data) ∧
    build_posts
        [[("filename".data, "a".data), ("title".data, "A".data),
          ("date".data, "2023-01-01T10:00:00+00:00".data), ("draft".data, "false".data)],
         [("filename".data, "b".data), ("title".data, "B".data),
          ("date".data, "2023-02-01T10:00:00+00:00".data), ("draft".data, "true".data)]] =
      .ok "<ul><li><span>2023-01-01</span>&nbsp;<a href=\"/posts/a\">A</a></li></ul>".data := by
  refine ⟨fun posts h => buildPostsAux_ok posts "<ul>".data h, fun p => ?_, rfl⟩
  unfold postEntryPure
  by_cases hc : (dictLookup p "draft".data).getD [] = "false".data
  · rw [if_pos hc]
    simp [hc]
  · rw [if_neg hc]
    simp [hc]

theorem post_entry_missing_filename {p : Dict}
    (hfn : dictLookup p "filename".data = none) :
    post_entry p = .error (.keyError "filename") := by
  unfold post_entry
  rw [dictGet_eq_none hfn]

theorem post_entry_missing_title {p : Dict} {fn : Chars}
    (hfn : dictLookup p "filename".data = some fn)
    (h : dictLookup p "title".data = none) :
    post_entry p = .error (.keyError "title") := by
  unfold post_entry
  rw [dictGet_eq_some hfn, dictGet_eq_none h]

theorem post_entry_missing_date {p : Dict} {fn ti : Chars}
    (hfn : dictLookup p "filename".data = some fn)
    (hti : dictLookup p "title".data = some ti)
    (h : dictLookup p "date".data = none) :
    post_entry p = .error (.keyError "date") := by
  unfold post_entry
  rw [dictGet_eq_some hfn, dictGet_eq_some hti, dictGet_eq_none h]

theorem post_entry_bad_date {p : Dict} {fn ti da : Chars}
    (hfn : dictLookup p "filename".data = some fn)
    (hti : dictLookup p "title".data = some ti)
    (hda : dictLookup p "date".data = some da)
    (h : strptime_date da = none) :
    post_entry p = .error .valueError := by
  unfold post_entry
  rw [dictGet_eq_some hfn, dictGet_eq_some hti, dictGet_eq_some hda]
  simp only [h]

theorem post_entry_missing_draft {p : Dict} {fn ti da ds : Chars}
    (hfn : dictLookup p "filename".data = some fn)
    (hti : dictLookup p "title".data = some ti)
    (hda : dictLookup p "date".data = some da)
    (hsd : strptime_date da = some ds)
    (h : dictLookup p "draft".data = none) :
    post_entry p = .error (.keyError "draft") := by
  unfold post_entry
  rw [dictGet_eq_some hfn, dictGet_eq_some hti, dictGet_eq_some hda, dictGet_eq_none h]
  simp only [hsd]

theorem post_entry_err_of_missing (p : Dict)
    (h : dictLookup p "title".data = none ∨ dictLookup p "date".data = none ∨
      dictLookup p "draft".data = none) :
    ∃ e, post_entry p = .error e := by
  cases hfn : dictLookup p "filename".data with
  | none => exact ⟨_, post_entry_missing_filename hfn⟩
  | some fn =>
    cases hti : dictLookup p "title".data with
    | none => exact ⟨_, post_entry_missing_title hfn hti⟩
    | some ti =>
      cases hda : dictLookup p "date".data with
      | none => exact ⟨_, post_entry_missing_date hfn hti hda⟩
      | some da =>
        cases hsd : strptime_date da with
        | none => exact ⟨_, post_entry_bad_date hfn hti hda hsd⟩
        | some ds =>
          cases hdr : dictLookup p "draft".data with
          | none => exact ⟨_, post_entry_missing_draft hfn hti hda hsd hdr⟩
          | some dr =>
            exfalso
            rcases h with h | h | h
            · rw [hti] at h; cases h
            · rw [hda] at h; cases h
            · rw [hdr] at h; cases h

theorem buildPostsAux_err_mem :
    ∀ (posts : List Dict) (acc : Chars) (p : Dict) (e' : Err), p ∈ posts →
      post_entry p = .error e' → ∃ e, buildPostsAux acc posts = .error e := by
  intro posts
  induction posts with
  | nil => intro acc p e' hm _; cases hm
  | cons q rest ih =>
    intro acc p e' hm hpe
    cases hq : post_entry q with
    | error e0 =>
      refine ⟨e0, ?_⟩
      show (post_entry q).bind _ = _
      rw [hq]
      rfl
    | ok v =>
      rcases List.mem_cons.mp hm with rfl | hm'
      · rw [hq] at hpe; cases hpe
      · obtain ⟨e, he⟩ := ih (acc ++ v) p e' hm' hpe
        refine ⟨e, ?_⟩
        show (post_entry q).bind _ = _
        rw [hq]
        show buildPostsAux (acc ++ v) rest = _
        rw [he]

theorem buildPostsAux_err_prefix :
    ∀ (pre : List Dict) (acc : Chars) (p : Dict) (rest : List Dict) (e : Err),
      (∀ q ∈ pre, wfPost q = true) → post_entry p = .error e →
      buildPostsAux acc (pre ++ p :: rest) = .error e := by
  intro pre
  induction pre with
  | nil =>
    intro acc p rest e _ hpe
    show (post_entry p).bind _ = _
    rw [hpe]
    rfl
  | cons q pre' ih =>
    intro acc p rest e hwf hpe
    show (post_entry q).bind _ = _
    rw [post_entry_of_wf q (hwf q (List.mem_cons_self q pre'))]
    show buildPostsAux (acc ++ postEntryPure q) (pre' ++ p :: rest) = _
    exact ih _ p rest e (fun r hr => hwf r (List.mem_cons_of_mem q hr)) hpe

/-- C10 (counterexample): a post that lacks the `draft` key but carries
a malformed date makes `build_posts` raise ValueError (from the date
parse), not KeyError, although the post lacks one of the three keys. -/
theorem c10_counterexample :
    build_posts [[("filename".data, "a".data), ("title".data, "t".data),
        ("date".data, "x".data)]] = .error .valueError ∧
    (∀ k, Err.valueError ≠ Err.keyError k) :=
  ⟨rfl, fun _ h => by cases h⟩

/-- C10 (amended): whenever a post in the accumulated metadata list
lacks `title`, `date` or `draft`, `build_posts` aborts with an unhandled
error; when the posts before it are well formed, the error of the first
failing post is the KeyError of the first missing key in lookup order
filename, title, date, draft — with the date parsed (raising ValueError
on a malformed date) before the draft flag is tested, so even a post
that would be filtered out as a draft aborts the build. -/
theorem c10_amended :
    (∀ (posts : List Dict) (p : Dict), p ∈ posts →
        (dictLookup p "title".data = none ∨ dictLookup p "date".data = none ∨
          dictLookup p "draft".data = none) →
        ∃ e, build_posts posts = .error e) ∧
    (∀ (pre rest : List Dict) (p : Dict) (fn : Chars),
        (∀ q ∈ pre, wfPost q = true) → dictLookup p "filename".data = some fn →
        ((dictLookup p "title".data = none →
            build_posts (pre ++ p :: rest) = .error (.keyError "title")) ∧
         (∀ ti, dictLookup p "title".data = some ti →
            dictLookup p "date".data = none →
            build_posts (pre ++ p :: rest) = .error (.keyError "date")) ∧
         (∀ ti da, dictLookup p "title".data = some ti →
            dictLookup p "date".data = some da → strptime_date da = none →
            build_posts (pre ++ p :: rest) = .error .valueError) ∧
         (∀ ti da ds, dictLookup p "title".data = some ti →
            dictLookup p "date".data = some da → strptime_date da = some ds →
            dictLookup p "draft".data = none →
            build_posts (pre ++ p :: rest) = .error (.keyError "draft")))) := by
  constructor
  · intro posts p hm hmiss
    obtain ⟨e', he'⟩ := post_entry_err_of_missing p hmiss
    exact buildPostsAux_err_mem posts "<ul>".data p e' hm he'
  · intro pre rest p fn hwf hfn
    refine ⟨fun hti => ?_, fun ti hti hda => ?_, fun ti da hti hda hsd => ?_,
      fun ti da ds hti hda hsd hdr => ?_⟩
    · exact buildPostsAux_err_prefix pre _ p rest _ hwf (post_entry_missing_title hfn hti)
    · exact buildPostsAux_err_prefix pre _ p rest _ hwf (post_entry_missing_date hfn hti hda)
    · exact buildPostsAux_err_prefix pre _ p rest _ hwf (post_entry_bad_date hfn hti hda hsd)
    · exact buildPostsAux_err_prefix pre _ p rest _ hwf
        (post_entry_missing_draft hfn hti hda hsd hdr)

/-! ## Witnesses -/

/-- Witness for C2 at a concrete post without any `-->`. -/
theorem c2_amended_witness :
    containsSub "-->".data "hello".data = false ∧
    process_post id "\x7b\x7bCONTENT\x7d\x7d".data "\x7b\x7bCONTENT\x7d\x7d".data []
        "p".data "hello".data =
      .ok (substituteTemplates "\x7b\x7bCONTENT\x7d\x7d".data "\x7b\x7bCONTENT\x7d\x7d".data
        [] [("filename".data, "p".data)] "hello".data, none) :=
  ⟨by decide,
    (c2_amended "\x7b\x7bCONTENT\x7d\x7d".data "\x7b\x7bCONTENT\x7d\x7d".data []
      "p".data "hello".data (by decide)).2 id "hello".data rfl⟩

/-- Witness for C3 at the two concrete posts of the claim. -/
theorem c3_index_draft_filter_witness :
    (∀ p ∈ [[("filename".data, "a".data), ("title".data, "A".data),
          ("date".data, "2023-01-01T10:00:00+00:00".data), ("draft".data, "false".data)],
        [("filename".data, "b".data), ("title".data, "B".data),
          ("date".data, "2023-02-01T10:00:00+00:00".data), ("draft".data, "true".data)]],
      wfPost p = true) ∧
    build_posts
        [[("filename".data, "a".data), ("title".data, "A".data),
          ("date".data, "2023-01-01T10:00:00+00:00".data), ("draft".data, "false".data)],
         [("filename".data, "b".data), ("title".data, "B".data),
          ("date".data, "2023-02-01T10:00:00+00:00".data), ("draft".data, "true".data)]] =
      .ok ("<ul>".data ++
        ([[("filename".data, "a".data), ("title".data, "A".data),
           ("date".data, "2023-01-01T10:00:00+00:00".data), ("draft".data, "false".data)],
          [("filename".data, "b".data), ("title".data, "B".data),
           ("date".data, "2023-02-01T10:00:00+00:00".data), ("draft".data, "true".data)]].map
          postEntryPure).flatten ++ "</ul>".data) :=
  ⟨by decide, c3_index_draft_filter.1 _ (by decide)⟩

/-- Witness for C4 at a concrete page `A{{exists:v}}I{{exists:v:end}}B`. -/
theorem c4_amended_witness :
    ("I".data : Chars) ≠ [] ∧
    firstIdx (existsStartMarker "v".data)
        ("A".data ++ existsStartMarker "v".data ++ "I".data ++ existsEndMarker "v".data ++
          "B".data) = some "A".data.length ∧
    firstIdx (existsEndMarker "v".data)
        ("I".data ++ existsEndMarker "v".data ++ "B".data) = some "I".data.length ∧
    applyConditionals ["v".data] [("v".data, "1".data)]
        ("A".data ++ existsStartMarker "v".data ++ "I".data ++ existsEndMarker "v".data ++
          "B".data) =
      "A".data ++ (if dictContains [("v".data, "1".data)] "v".data then "I".data else []) ++
        condSub (existsStartMarker "v".data) (existsEndMarker "v".data)
          (dictContains [("v".data, "1".data)] "v".data) "B".data :=
  ⟨by decide, by decide, by decide,
    c4_amended "v".data [("v".data, "1".data)] "A".data "I".data "B".data
      (by decide) (by decide) (by decide)⟩

/-- Witness for C5 at a concrete line and a concrete two-entry mapping. -/
theorem c5_metadata_roundtrip_witness :
    ('=' ∉ (" title ".data : Chars)) ∧
    parseMetadataLines [] [" title ".data ++ '=' :: " my post ".data] =
      .ok [("title".data, "my post".data)] ∧
    parseMetadataLines []
        (pySplitlines (serializeMeta [("title".data, "my post".data),
          ("draft".data, "false".data)])) =
      .ok [("title".data, "my post".data), ("draft".data, "false".data)] :=
  ⟨by decide,
    by rw [c5_metadata_roundtrip.1 [] " title ".data " my post ".data (by decide)]; rfl,
    c5_metadata_roundtrip.2 [("title".data, "my post".data), ("draft".data, "false".data)]
      (by decide) (by decide)⟩

/-- Witness for C6 at a known language and a concrete escaped code text. -/
theorem c6_highlight_decode_witness :
    KNOWN_LEXERS.contains "python" = true ∧
    hilite_code "python" "a &amp; b".data =
      .ok (pygments_highlight "python" (decode4 "a &amp; b".data)) :=
  ⟨by decide, c6_highlight_decode.1 "python" "a &amp; b".data (by decide)⟩

/-- Witness for C7 at a concrete page with an unknown `language-zz` block. -/
theorem c7_unknown_lexer_aborts_witness :
    (("zz".data, "x".data) ∈
      scanCodeAll "<pre><code class=\"language-zz\">x</code></pre>".data) ∧
    KNOWN_LEXERS.contains (String.mk ("zz".data, "x".data).1) = false ∧
    (∃ l, hlSub "<pre><code class=\"language-zz\">x</code></pre>".data =
      .error (.classNotFound l) ∧ KNOWN_LEXERS.contains l = false) :=
  ⟨by decide, by decide,
    (c7_unknown_lexer_aborts "<pre><code class=\"language-zz\">x</code></pre>".data
      ("zz".data, "x".data) (by decide) (by decide)).1⟩

/-- Witness for C9 at a date value with a `T` and one without. -/
theorem c9_date_truncation_witness :
    firstIdx "T".data "2023-05-06T07:08".data = some 10 ∧
    metaSubstitute [("date".data, "2023-05-06T07:08".data)] "\x7b\x7bdate\x7d\x7d".data =
      "2023-05-06T07:08".data.take 10 ∧
    firstIdx "T".data "2023-05-06".data = none ∧
    metaSubstitute [("date".data, "2023-05-06".data)] "\x7b\x7bdate\x7d\x7d".data =
      "2023-05-06".data.dropLast ∧
    "2023-05-06".data.dropLast ≠ "2023-05-06".data :=
  ⟨by decide,
    (c9_date_truncation "2023-05-06T07:08".data).1 10 (by decide),
    by decide,
    ((c9_date_truncation "2023-05-06".data).2 (by decide)).1,
    ((c9_date_truncation "2023-05-06".data).2 (by decide)).2 (by decide)⟩

/-- Witness for C10 at a post that lacks the `title` key. -/
theorem c10_amended_witness :
    (dictLookup [("filename".data, "a".data)] "title".data = none ∨
      dictLookup [("filename".data, "a".data)] "date".data = none ∨
      dictLookup [("filename".data, "a".data)] "draft".data = none) ∧
    build_posts [[("filename".data, "a".data)]] = .error (.keyError "title") :=
  ⟨Or.inl (by decide),
    (c10_amended.2 [] [] [("filename".data, "a".data)] "a".data
      (fun q hq => absurd hq (by simp)) (by decide)).1 (by decide)⟩

end SiteGen

